import Mathlib

/-!
Verification of the `zf` fuzzy finder (Rust sources `src/filter.rs`, `src/ui.rs`).

The Rust code is shallowly embedded: strings are lists of bytes (`Nat`),
`f64` scores are modelled as exact rationals (every score operation in the
source is +1, +2, half, and one coverage multiplication, all exact), and every
place where the Rust code can terminate abnormally (an out-of-bounds index)
is modelled with an outer `Option` layer whose `none` means the program dies.
-/

/- Rat arithmetic in Batteries is marked irreducible; make it reducible again so
that concrete score computations can be checked by kernel reduction. -/
set_option allowUnsafeReducibility true in
attribute [semireducible] Rat.add Rat.mul Rat.inv Rat.sub Rat.div

namespace ZF

/-- ASCII bytes of a Lean string literal, used to write concrete test inputs. -/
def bytes (s : String) : List Nat := s.data.map Char.toNat

/-- The `Range` struct of `filter.rs` (byte offsets into a candidate's path).
The Rust field `end` is a Lean keyword and is called `stop` here. -/
structure Range where
  start : Nat
  stop : Nat
deriving DecidableEq, Repr, Inhabited

/-- The `Candidate` struct of `filter.rs`; `rank: f64` is modelled as `Rat`. -/
structure Candidate where
  path : List Nat
  name : Option (List Nat)
  rank : Rat
  ranges : List Range
deriving DecidableEq, Repr

/-- Splitting of a byte string on a delimiter byte, as Rust `str::split` does:
the result always has one segment more than there are delimiters, so
consecutive delimiters yield empty segments. -/
def splitOnByte : List Nat → Nat → List (List Nat)
  | [], _ => [[]]
  | c :: cs, d =>
    if c = d then [] :: splitOnByte cs d
    else
      match splitOnByte cs d with
      | [] => [[c]]
      | t :: ts => (c :: t) :: ts

/-- Splitting as `BufRead::split` does for `Candidate::collect`: like
`splitOnByte`, except that an input ending in the delimiter produces no final
empty segment, and an empty input produces no segment at all. -/
def bufSplit (content : List Nat) (d : Nat) : List (List Nat) :=
  if content = [] then []
  else if content.getLast? = some d then (splitOnByte content d).dropLast
  else splitOnByte content d

/-- Scan the reversed separator-split segments of a path for its last normal
component (helper of `fileName`). -/
def lastNormalSegment : List (List Nat) → Option (List Nat)
  | [] => none
  | seg :: rest =>
    if seg = [] ∨ seg = [46] then lastNormalSegment rest
    else if seg = [46, 46] then none
    else some seg

/-- Rust `Path::file_name` on Unix, as used by `Candidate::collect`: the last
component of the path, where empty segments (duplicate or trailing separators)
and `"."` segments are skipped; `none` when the last component is `".."` or
nothing remains. -/
def fileName (path : List Nat) : Option (List Nat) :=
  lastNormalSegment ((splitOnByte path 47).reverse)

/-- The `Candidate::collect` constructor of `filter.rs`: split the raw input on
the delimiter byte, drop zero-length segments and build one candidate per
remaining segment, with `name` computed by `Path::file_name` unless `plain`. -/
def Candidate.collect (content : List Nat) (delimiter : Nat) (plain : Bool) :
    List Candidate :=
  (bufSplit content delimiter).filterMap fun item =>
    if item.length = 0 then none
    else some ⟨item, if !plain then fileName item else none, 0, []⟩

/-- The `has_upper` helper of `filter.rs` (`is_ascii_uppercase` on each char). -/
def has_upper (query : List Nat) : Bool :=
  query.any fun c => decide (65 ≤ c ∧ c ≤ 90)

/-- The `split_query` helper of `filter.rs`: split the query on single spaces. -/
def split_query (query : List Nat) : List (List Nat) :=
  splitOnByte query 32

/-- Rust `u8::to_ascii_lowercase` (the `(ch as char).to_ascii_lowercase()` in
`index_of`). -/
def to_ascii_lowercase (b : Nat) : Nat :=
  if 65 ≤ b ∧ b ≤ 90 then b + 32 else b

/-- Rust `Iterator::position` on a byte list. -/
def position (p : Nat → Bool) : List Nat → Option Nat
  | [] => none
  | a :: as_ => if p a then some 0 else (position p as_).map (· + 1)

/-- The `index_of` helper of `filter.rs`: first index `≥ start_index` whose
byte, lowercased, equals `value` (the needle is *not* lowercased). -/
def index_of (slice : List Nat) (start_index : Nat) (value : Nat) :
    Option Nat :=
  (position (fun ch => to_ascii_lowercase ch = value) (slice.drop start_index)).map
    (start_index + ·)

/-- The `index_of_case_sensitive` helper of `filter.rs`. -/
def index_of_case_sensitive (slice : List Nat) (start_index : Nat) (value : Nat) :
    Option Nat :=
  (position (fun ch => ch = value) (slice.drop start_index)).map (start_index + ·)

/-- The case dispatch performed inside `IndexIterator::next` and `scan_to_end`. -/
def idx_of (smart_case : Bool) (s : List Nat) (i : Nat) (v : Nat) : Option Nat :=
  if smart_case then index_of s i v else index_of_case_sensitive s i v

/-- Bound on `position`, needed to define `index_iterator` by recursion. -/
def position_some_lt {p : Nat → Bool} :
    ∀ {l : List Nat} {i : Nat}, position p l = some i → i < l.length := by
  intro l
  induction l with
  | nil => intro i h; simp [position] at h
  | cons a as_ ih =>
    intro i h
    simp only [position] at h
    by_cases hp : p a
    · simp only [hp, if_true] at h
      simp only [Option.some_inj] at h
      simp only [List.length_cons]
      omega
    · simp only [hp, if_false] at h
      cases hpos : position p as_ with
      | none => rw [hpos] at h; simp at h
      | some j =>
        rw [hpos] at h
        simp at h
        have := ih hpos
        simp only [List.length_cons]
        omega

/-- Bound on `idx_of`, needed to define `index_iterator` by recursion. -/
def idx_of_bounds {sc : Bool} {s : List Nat} {i : Nat} {v : Nat} {j : Nat}
    (h : idx_of sc s i v = some j) : i ≤ j ∧ j < s.length := by
  unfold idx_of index_of index_of_case_sensitive at h
  cases sc <;> simp only [if_true, if_false, Bool.false_eq_true, ite_true, ite_false,
    Option.map_eq_some'] at h <;>
  · obtain ⟨k, hk, rfl⟩ := h
    have hlt := position_some_lt hk
    rw [List.length_drop] at hlt
    omega

/-- The unfolding of `IndexIterator` of `filter.rs` with explicit structural
fuel (so that it evaluates by kernel reduction); `str.length + 1 - index` fuel
is always sufficient because every step strictly advances the internal index,
see `index_iterator_unfold`. -/
def index_iterator_go (str : List Nat) (chr : Nat) (smart_case : Bool) :
    Nat → Nat → List Nat
  | 0, _ => []
  | fuel + 1, index =>
    match idx_of smart_case str index chr with
    | none => []
    | some i => i :: index_iterator_go str chr smart_case fuel (i + 1)

/-- The (finite) list of indices `IndexIterator::next` produces starting from
internal index `index`. -/
def index_iterator (str : List Nat) (chr : Nat) (smart_case : Bool)
    (index : Nat) : List Nat :=
  index_iterator_go str chr smart_case (str.length + 1 - index) index

/-- The `is_start_of_word` helper of `filter.rs`: path separator `/`, `_`,
`-`, `.` or space. -/
def is_start_of_word (byte : Nat) : Bool :=
  byte = 47 ∨ byte = 95 ∨ byte = 45 ∨ byte = 46 ∨ byte = 32

/-- The `Match` struct of `filter.rs` (`end` renamed to `stop`). -/
structure Match where
  rank : Rat
  start : Nat
  stop : Nat
deriving DecidableEq, Repr

/-- The character loop of `scan_to_end` in `filter.rs`, with state
`(last_index, last_sequential, rank)`.  The outer `Option` is `none` when the
source would die on the out-of-bounds index `name[index - 1]` (never reachable
here, kept for faithfulness); the inner `Option` is `none` when a character of
the token cannot be found (the `return None` of the source). -/
def scan_go (name : List Nat) (smart_case : Bool) :
    List Nat → Nat → Bool → Rat → Option (Option (Rat × Nat))
  | [], last_index, _, rank => some (some (rank, last_index))
  | chr :: rest, last_index, last_sequential, rank =>
    match idx_of smart_case name (last_index + 1) chr with
    | none => some none
    | some index =>
      if index = last_index + 1 then
        -- sequential matches only count the first character
        if !last_sequential then scan_go name smart_case rest index true (rank + 1)
        else scan_go name smart_case rest index true rank
      else
        match name[index - 1]? with
        | none => none
        | some b =>
          -- penalty for not starting on a word boundary
          let rank := if !is_start_of_word b then rank + 2 else rank
          scan_go name smart_case rest index false (rank + ((index - last_index : Nat) : Rat))

/-- The initial rank of `scan_to_end` in `filter.rs`: base `1.0`, plus `2.0`
when the byte before the start is not on a word boundary; `none` when
`name[start_index - 1]` is out of bounds and the source dies. -/
def boundary_rank (name : List Nat) (start_index : Nat) : Option Rat :=
  if start_index > 0 then
    match name[start_index - 1]? with
    | none => none
    | some b => some (if !is_start_of_word b then (3 : Rat) else 1)
  else some 1

/-- The `scan_to_end` function of `filter.rs`.  The outer `Option` is `none`
when the source dies on the out-of-bounds index `name[start_index - 1]`
(this happens when `start_index` exceeds the name's length); the inner
`Option` is the source's `Option<Match>`. -/
def scan_to_end (name token : List Nat) (start_index : Nat) (smart_case : Bool) :
    Option (Option Match) :=
  -- penalty for not starting on a word boundary
  match boundary_rank name start_index with
  | none => none
  | some rank0 =>
    match scan_go name smart_case token start_index false rank0 with
    | none => none
    | some none => some none
    | some (some (r, last_index)) => some (some ⟨r, start_index, last_index⟩)

/-- One candidate-scan loop of `rank_token` in `filter.rs`: walk the
occurrence indices (from `IndexIterator` over the *path*), score each with
`scan_to_end` against `scan_str`, keep the best (strictly smaller) score with
its range, and break at the first failing occurrence.  The outer `Option` is
the abnormal-termination layer propagated from `scan_to_end`. -/
def phase_loop (scan_str token_rest : List Nat) (smart_case : Bool) :
    List Nat → Option (Rat × Nat × Nat) → Option (Option (Rat × Nat × Nat))
  | [], best => some best
  | start_index :: more, best =>
    match scan_to_end scan_str token_rest start_index smart_case with
    | none => none
    | some none => some best
    | some (some m) =>
      let best' := match best with
        | none => some (m.rank, m.start, m.stop)
        | some (b, s, e) =>
          if m.rank < b then some (m.rank, m.start, m.stop) else some (b, s, e)
      phase_loop scan_str token_rest smart_case more best'

/-- The retry loop of `rank_token` in `filter.rs` (lines 228-241): scan the
full path when the filename phase found nothing; the score is returned raw
(no halving, no coverage scaling). -/
def rank_token_retry (path : List Nat) (chr0 : Nat) (rest : List Nat)
    (smart_case : Bool) : Option (Option (Rat × Range)) :=
  match phase_loop path rest smart_case (index_iterator path chr0 smart_case 0) none with
  | none => none
  | some none => some none
  | some (some (r, s, e)) => some (some (r, ⟨s, e⟩))

/-- The `rank_token` function of `filter.rs`.  The `f64::MAX` sentinel is
modelled by `Option`.  The outer `Option` is `none` when the source dies:
on `token[0]` for an empty token, or inside `scan_to_end` when an occurrence
index taken from the *path* runs past the end of the *name*.  On success the
result carries the score and the final value of the `&mut Range` out
parameter. -/
def rank_token (path : List Nat) (name : Option (List Nat)) (token : List Nat)
    (smart_case : Bool) : Option (Option (Rat × Range)) :=
  match token with
  | [] => none
  | chr0 :: rest =>
    match name with
    | some n =>
      match phase_loop n rest smart_case (index_iterator path chr0 smart_case 0) none with
      | none => none
      | some (some (r, s, e)) =>
        let offs := path.length - n.length
        let r := r / 2
        -- how much of the token matched the filename?
        let token_len := rest.length + 1
        let name_len := n.length
        let r := if token_len = name_len then r / 2
                 else r * (1 - (token_len : Rat) / (name_len : Rat))
        some (some (r, ⟨s + offs, e + offs⟩))
      | some none => rank_token_retry path chr0 rest smart_case
    | none => rank_token_retry path chr0 rest smart_case

/-- The token loop of `rank_candidate` in `filter.rs`: every token must score
(AND semantics); the candidate's rank is the sum of the per-token scores, and
the per-token ranges are collected in token order. -/
def rank_tokens (path : List Nat) (name : Option (List Nat)) (smart_case : Bool) :
    List (List Nat) → Option (Option (Rat × List Range))
  | [] => some (some (0, []))
  | t :: ts =>
    match rank_token path name t smart_case with
    | none => none
    | some none => some none
    | some (some (r, rg)) =>
      match rank_tokens path name smart_case ts with
      | none => none
      | some none => some none
      | some (some (racc, rgs)) => some (some (r + racc, rg :: rgs))

/-- The `rank_candidate` function of `filter.rs`.  The ranges vector is
pre-filled with default ranges and every slot is overwritten on success, so on
success it equals the collected per-token ranges; a rejected candidate is
dropped by the caller, so its partially-written ranges are not modelled. -/
def rank_candidate (c : Candidate) (query_tokens : List (List Nat))
    (smart_case : Bool) : Option (Option Candidate) :=
  match rank_tokens c.path c.name smart_case query_tokens with
  | none => none
  | some none => some none
  | some (some (r, rgs)) => some (some ⟨c.path, c.name, r, rgs⟩)

/-- The candidate loop of `rank_candidates` in `filter.rs`: keep, in input
order, the candidates for which every token scores. -/
def rank_all (query_tokens : List (List Nat)) (smart_case : Bool) :
    List Candidate → Option (List Candidate)
  | [] => some []
  | c :: cs =>
    match rank_candidate c query_tokens smart_case with
    | none => none
    | some none => rank_all query_tokens smart_case cs
    | some (some c') => (rank_all query_tokens smart_case cs).map (c' :: ·)

/-- Rust `a.rank.partial_cmp(&b.rank).unwrap_or(Ordering::Equal)`; on the
rational model `partial_cmp` is total. -/
def rank_cmp (a b : Rat) : Ordering :=
  if a < b then .lt else if b < a then .gt else .eq

/-- Rust `usize::cmp`. -/
def usize_cmp (a b : Nat) : Ordering :=
  if a < b then .lt else if b < a then .gt else .eq

/-- Rust `String::cmp`: byte-wise lexicographic comparison. -/
def byte_list_cmp : List Nat → List Nat → Ordering
  | [], [] => .eq
  | [], _ :: _ => .lt
  | _ :: _, [] => .gt
  | a :: as_, b :: bs =>
    match usize_cmp a b with
    | .eq => byte_list_cmp as_ bs
    | o => o

/-- The sort comparator closure of `rank_candidates` in `filter.rs`:
rank, then path byte-length, then path lexicographic order. -/
def cand_cmp (a b : Candidate) : Ordering :=
  match rank_cmp a.rank b.rank with
  | .eq =>
    match usize_cmp a.path.length b.path.length with
    | .eq => byte_list_cmp a.path b.path
    | o => o
  | o => o

/-- The comparator as a `Bool` relation, for the (stable) sort. -/
def cand_le (a b : Candidate) : Bool :=
  cand_cmp a b ≠ .gt

/-- Stable insertion into a sorted list: the new element goes in front of the
first element it compares `le` to. -/
def insert_sorted (le : α → α → Bool) (a : α) : List α → List α
  | [] => [a]
  | b :: bs => if le a b then a :: b :: bs else b :: insert_sorted le a bs

/-- Rust `sort_by` is a stable sort; a stable sort is a unique function of the
comparator and the input, so it is modelled by a stable insertion sort (which
also evaluates by kernel reduction). -/
def sort_by (le : α → α → Bool) : List α → List α
  | [] => []
  | a :: as_ => insert_sorted le a (sort_by le as_)

/-- The `rank_candidates` function of `filter.rs`.  `none` models abnormal
termination inside the ranking loop (see `rank_token`). -/
def rank_candidates (candidates : List Candidate) (query : List Nat)
    (keep_order : Bool) : Option (List Candidate) :=
  let smart_case := !has_upper query
  let ranked? :=
    if query.length > 0 then
      rank_all (split_query query) smart_case candidates
    else some []
  match ranked? with
  | none => none
  | some ranked => some (if !keep_order then sort_by cand_le ranked else ranked)

/-- The `Action::Byte` edit branch of `Terminal::run` in `ui.rs`: assert the
caret is inside the query, insert the byte at the caret, advance the caret.
`none` models the failed assertion killing the program. -/
def apply_byte (query : List Nat) (cursor : Nat) (byte : Nat) :
    Option (List Nat × Nat) :=
  if cursor ≤ query.length then
    some (query.take cursor ++ byte :: query.drop cursor, cursor + 1)
  else none

/-- The `Action::Backspace` branch of `Terminal::run` in `ui.rs`: `pop` when
the caret sits at the end of the query, otherwise `String::remove(cursor)`
(which removes the byte *at* the caret); `none` models `remove` dying on an
out-of-range index. -/
def apply_backspace (query : List Nat) (cursor : Nat) :
    Option (List Nat × Nat) :=
  if query.length > 0 ∧ cursor = query.length then
    some (query.dropLast, cursor - 1)
  else if query.length > 0 ∧ cursor > 0 then
    if cursor < query.length then
      some (query.take cursor ++ query.drop (cursor + 1), cursor - 1)
    else none
  else some (query, cursor)

/-- The `IterRanges` iterator of `ui.rs`, unfolded into the list of items its
`next` produces.  State: the not-yet-consumed ranges (whose head is the
iterator's `last` field) and the `start` cursor.  The branch taken after a
gap item is inlined: the source's next `next` call re-checks `start ≥ stop`
and then necessarily takes the `self.start == start` branch. -/
def iter_ranges_go (stop : Nat) : List Range → Nat → List (Bool × Range)
  | [], start =>
    if start < stop then [(false, ⟨start, stop⟩)] else []
  | r :: rest, start =>
    if stop ≤ start then []
    else
      let e := min (r.stop + 1) stop
      if start = r.start then
        (true, ⟨r.start, e⟩) :: iter_ranges_go stop rest e
      else
        (false, ⟨start, r.start⟩) ::
          (if stop ≤ r.start then []
           else (true, ⟨r.start, e⟩) :: iter_ranges_go stop rest e)

/-- `IterRanges::new(ranges.iter(), stop)` run to exhaustion. -/
def IterRanges (ranges : List Range) (stop : Nat) : List (Bool × Range) :=
  iter_ranges_go stop ranges 0

/-- Well-formed range sequences, as claim C10 assumes them: sorted by start,
pairwise non-overlapping once each `end` is normalized to `end + 1`, and
contained in `[0, stop)`; `a` is a lower bound for the next start. -/
def wfRanges : Nat → List Range → Nat → Prop
  | a, [], b => a ≤ b
  | a, r :: rs, b =>
    a ≤ r.start ∧ r.start ≤ r.stop ∧ r.stop < b ∧ wfRanges (r.stop + 1) rs b

instance wfRanges.dec : (a : Nat) → (rs : List Range) → (b : Nat) →
    Decidable (wfRanges a rs b)
  | _, [], _ => by unfold wfRanges; infer_instance
  | a, r :: rs, b => by
    unfold wfRanges
    have := wfRanges.dec (r.stop + 1) rs b
    infer_instance

/-- Flagged segments `ss` exactly partition the interval `[a, b)` in order:
each segment is non-empty, starts where the previous one stopped, the first
starts at `a` and the last stops at `b`. -/
def segsPartition : Nat → List (Bool × Range) → Nat → Prop
  | a, [], b => a = b
  | a, (_, r) :: ss, b => r.start = a ∧ a < r.stop ∧ segsPartition r.stop ss b

instance segsPartition.dec : (a : Nat) → (ss : List (Bool × Range)) → (b : Nat) →
    Decidable (segsPartition a ss b)
  | _, [], _ => by unfold segsPartition; infer_instance
  | a, (_, r) :: ss, b => by
    unfold segsPartition
    have := segsPartition.dec r.stop ss b
    infer_instance

/-- Display name as the specification's words describe it, for comparison with
the code: the substring after the last path separator, the whole string when
no separator occurs. -/
def spec_display_name (s : List Nat) : List Nat :=
  ((splitOnByte s 47).getLast?).getD s

/-- Byte-wise lexicographic `≤` on paths, spelled out as a relation for the
ordering claim. -/
def listLexLE : List Nat → List Nat → Prop
  | [], _ => True
  | _ :: _, [] => False
  | a :: as_, b :: bs => a < b ∨ (a = b ∧ listLexLE as_ bs)

instance listLexLE.dec : (a b : List Nat) → Decidable (listLexLE a b)
  | [], _ => by unfold listLexLE; infer_instance
  | _ :: _, [] => by unfold listLexLE; infer_instance
  | a :: as_, b :: bs => by
    unfold listLexLE
    have := listLexLE.dec as_ bs
    infer_instance

/-- Ascending order on candidates by the triple (rank, path byte-length, path
lexicographic order), as the ordering claim states it. -/
def tripleLE (a b : Candidate) : Prop :=
  a.rank < b.rank ∨
    (a.rank = b.rank ∧
      (a.path.length < b.path.length ∨
        (a.path.length = b.path.length ∧ listLexLE a.path b.path)))

instance tripleLE.dec (a b : Candidate) : Decidable (tripleLE a b) := by
  unfold tripleLE
  infer_instance

/-! ### Fidelity of the fueled index iterator -/

theorem idx_of_none_of_ge {sc : Bool} {s : List Nat} {i : Nat} {v : Nat}
    (h : s.length ≤ i) : idx_of sc s i v = none := by
  have hd : s.drop i = [] := List.drop_eq_nil_of_le h
  unfold idx_of index_of index_of_case_sensitive
  cases sc <;> simp [hd, position]

theorem index_iterator_go_congr {str : List Nat} {chr : Nat} {sc : Bool} :
    ∀ (f₁ f₂ index : Nat), str.length + 1 - index ≤ f₁ →
      str.length + 1 - index ≤ f₂ →
      index_iterator_go str chr sc f₁ index = index_iterator_go str chr sc f₂ index := by
  intro f₁
  induction f₁ with
  | zero =>
    intro f₂ index h₁ h₂
    have hge : str.length ≤ index := by omega
    have hnone := @idx_of_none_of_ge sc str index chr hge
    cases f₂ with
    | zero => rfl
    | succ f₂ => simp [index_iterator_go, hnone]
  | succ f₁ ih =>
    intro f₂ index h₁ h₂
    cases f₂ with
    | zero =>
      have hge : str.length ≤ index := by omega
      have hnone := @idx_of_none_of_ge sc str index chr hge
      simp [index_iterator_go, hnone]
    | succ f₂ =>
      cases hidx : idx_of sc str index chr with
      | none => simp [index_iterator_go, hidx]
      | some i =>
        have hb := idx_of_bounds hidx
        simp only [index_iterator_go, hidx]
        rw [ih f₂ (i + 1) (by omega) (by omega)]

/-- The fueled `index_iterator` satisfies the recurrence of the source
iterator: take the next matching index and continue just past it. -/
theorem index_iterator_unfold (str : List Nat) (chr : Nat) (sc : Bool)
    (index : Nat) :
    index_iterator str chr sc index =
      match idx_of sc str index chr with
      | none => []
      | some i => i :: index_iterator str chr sc (i + 1) := by
  unfold index_iterator
  cases hidx : idx_of sc str index chr with
  | none =>
    cases hf : str.length + 1 - index with
    | zero => rfl
    | succ f => simp [index_iterator_go, hidx]
  | some i =>
    have hb := idx_of_bounds hidx
    have hf : str.length + 1 - index = (str.length - index) + 1 := by omega
    rw [hf]
    simp only [index_iterator_go, hidx]
    rw [index_iterator_go_congr (str.length - index) (str.length + 1 - (i + 1)) (i + 1)
      (by omega) (by omega)]

/-! ### The stable sort: sortedness and membership -/

theorem mem_insert_sorted {le : α → α → Bool} {a x : α} :
    ∀ {l : List α}, x ∈ insert_sorted le a l ↔ x = a ∨ x ∈ l := by
  intro l
  induction l with
  | nil => simp [insert_sorted]
  | cons b bs ih =>
    simp only [insert_sorted]
    by_cases hab : le a b = true
    · rw [if_pos hab]
      simp
    · rw [if_neg hab]
      simp only [List.mem_cons, ih]
      tauto

theorem insert_sorted_pairwise {le : α → α → Bool}
    (trans : ∀ a b c, le a b = true → le b c = true → le a c = true)
    (total : ∀ a b, le a b = true ∨ le b a = true) (a : α) :
    ∀ {l : List α}, l.Pairwise (le · · = true) →
      (insert_sorted le a l).Pairwise (le · · = true) := by
  intro l
  induction l with
  | nil => intro _; simp [insert_sorted]
  | cons b bs ih =>
    intro h
    rw [List.pairwise_cons] at h
    obtain ⟨hb, hbs⟩ := h
    simp only [insert_sorted]
    by_cases hab : le a b = true
    · rw [if_pos hab, List.pairwise_cons]
      refine ⟨?_, List.pairwise_cons.mpr ⟨hb, hbs⟩⟩
      intro x hx
      rcases List.mem_cons.mp hx with rfl | hx
      · exact hab
      · exact trans a b x hab (hb x hx)
    · have hba : le b a = true := (total a b).resolve_left hab
      rw [if_neg hab, List.pairwise_cons]
      refine ⟨?_, ih hbs⟩
      intro x hx
      rcases mem_insert_sorted.mp hx with rfl | hx
      · exact hba
      · exact hb x hx

theorem sort_by_pairwise {le : α → α → Bool}
    (trans : ∀ a b c, le a b = true → le b c = true → le a c = true)
    (total : ∀ a b, le a b = true ∨ le b a = true) :
    ∀ (l : List α), (sort_by le l).Pairwise (le · · = true) := by
  intro l
  induction l with
  | nil => simp [sort_by]
  | cons a as_ ih => exact insert_sorted_pairwise trans total a ih

theorem mem_sort_by {le : α → α → Bool} {x : α} :
    ∀ {l : List α}, x ∈ sort_by le l ↔ x ∈ l := by
  intro l
  induction l with
  | nil => simp [sort_by]
  | cons a as_ ih =>
    simp only [sort_by, mem_insert_sorted, List.mem_cons, ih]

/-! ### The comparator and the triple order -/

theorem rank_cmp_eq_iff {a b : Rat} : rank_cmp a b = .eq ↔ a = b := by
  unfold rank_cmp
  rcases lt_trichotomy a b with h | h | h
  · rw [if_pos h]
    simp only [iff_false, reduceCtorEq, false_iff]
    exact fun hab => absurd h (by rw [hab]; exact lt_irrefl b)
  · subst h
    rw [if_neg (lt_irrefl a), if_neg (lt_irrefl a)]
    simp
  · rw [if_neg (lt_asymm h), if_pos h]
    simp only [reduceCtorEq, false_iff]
    exact fun hab => absurd h (by rw [hab]; exact lt_irrefl b)

theorem rank_cmp_lt_iff {a b : Rat} : rank_cmp a b = .lt ↔ a < b := by
  unfold rank_cmp
  by_cases h1 : a < b
  · rw [if_pos h1]; simp [h1]
  · rw [if_neg h1]
    by_cases h2 : b < a
    · rw [if_pos h2]; simp [h1]
    · rw [if_neg h2]; simp [h1]

theorem rank_cmp_gt_iff {a b : Rat} : rank_cmp a b = .gt ↔ b < a := by
  unfold rank_cmp
  by_cases h1 : a < b
  · rw [if_pos h1]
    simp only [reduceCtorEq, false_iff]
    exact lt_asymm h1
  · rw [if_neg h1]
    by_cases h2 : b < a
    · rw [if_pos h2]; simp [h2]
    · rw [if_neg h2]; simp [h2]

theorem usize_cmp_eq_iff {a b : Nat} : usize_cmp a b = .eq ↔ a = b := by
  unfold usize_cmp
  by_cases h1 : a < b
  · rw [if_pos h1]
    simp only [reduceCtorEq, false_iff]
    omega
  · rw [if_neg h1]
    by_cases h2 : b < a
    · rw [if_pos h2]
      simp only [reduceCtorEq, false_iff]
      omega
    · rw [if_neg h2]
      simp only [true_iff]
      omega

theorem usize_cmp_lt_iff {a b : Nat} : usize_cmp a b = .lt ↔ a < b := by
  unfold usize_cmp
  by_cases h1 : a < b
  · rw [if_pos h1]; simp [h1]
  · rw [if_neg h1]
    by_cases h2 : b < a
    · rw [if_pos h2]; simp [h1]
    · rw [if_neg h2]; simp [h1]

theorem usize_cmp_gt_iff {a b : Nat} : usize_cmp a b = .gt ↔ b < a := by
  unfold usize_cmp
  by_cases h1 : a < b
  · rw [if_pos h1]
    simp only [reduceCtorEq, false_iff]
    omega
  · rw [if_neg h1]
    by_cases h2 : b < a
    · rw [if_pos h2]; simp [h2]
    · rw [if_neg h2]; simp [h2]

theorem byte_list_cmp_ne_gt_iff :
    ∀ {x y : List Nat}, byte_list_cmp x y ≠ .gt ↔ listLexLE x y := by
  intro x
  induction x with
  | nil =>
    intro y
    cases y <;> simp [byte_list_cmp, listLexLE]
  | cons a as_ ih =>
    intro y
    cases y with
    | nil => simp [byte_list_cmp, listLexLE]
    | cons b bs =>
      simp only [byte_list_cmp, listLexLE]
      rcases hc : usize_cmp a b with _ | _ | _
      · have hlt := usize_cmp_lt_iff.mp hc
        simp only [hc]
        simp only [ne_eq, reduceCtorEq, not_false_eq_true, true_iff]
        exact Or.inl hlt
      · have heq := usize_cmp_eq_iff.mp hc
        subst heq
        simp only [hc, lt_self_iff_false, true_and, false_or]
        exact ih
      · have hgt := usize_cmp_gt_iff.mp hc
        simp only [hc]
        constructor
        · intro h
          exact absurd rfl h
        · rintro (h | ⟨rfl, -⟩)
          · exfalso
            omega
          · exact absurd hgt (lt_irrefl a)

/-- C1: the claim states that `rank_candidates` always returns a (possibly
empty) list without dying, and that a query with consecutive spaces (which
yields an empty token) rejects every candidate and returns the empty list.
The code instead dies: `rank_token` reads `token[0]` of the empty token, an
out-of-bounds index.  At the concrete input below (one candidate `"a"`, query
of two spaces) the model returns `none` (abnormal termination), not
`some []`. -/
theorem c1_rank_candidates_dies_on_empty_token :
    rank_candidates [⟨bytes "a", some (bytes "a"), 0, []⟩] (bytes "  ") false
      = none ∧ (bytes "  ").length > 0 := by decide

/-- C2: the claim states that the filename-priority phase scans occurrences of
the token's first character *inside displayName*.  The code instead iterates
occurrences over the whole *path* (`IndexIterator::new(path, ...)`) and uses
those path-based indices directly as indices into `name` inside `scan_to_end`;
when such an index exceeds the name's length, `name[start_index - 1]` is out
of bounds and the program dies.  Concretely: path `"di/ab"`, display name
`"ab"`, token `"a"`: the only occurrence of `'a'` in the path is at index 3,
and `scan_to_end` reads `name[2]` of the 2-byte name. -/
theorem c2_rank_token_uses_path_indices_into_name :
    rank_token (bytes "di/ab") (some (bytes "ab")) (bytes "a") true = none ∧
      (index_iterator (bytes "di/ab") 97 true 0 = [3] ∧ (bytes "ab").length = 2) := by
  decide

/-- C3: smart case.  Query `"foo"` (no uppercase) matches candidate
`"FOO.txt"` case-insensitively, while query `"Foo"` (an uppercase letter)
fails to match candidate `"foo.txt"` because matching becomes
case-sensitive. -/
theorem c3_smart_case :
    ((rank_candidates [⟨bytes "FOO.txt", fileName (bytes "FOO.txt"), 0, []⟩]
        (bytes "foo") false).getD []).map Candidate.path = [bytes "FOO.txt"] ∧
    rank_candidates [⟨bytes "foo.txt", fileName (bytes "foo.txt"), 0, []⟩]
        (bytes "Foo") false = some [] ∧
    has_upper (bytes "foo") = false ∧ has_upper (bytes "Foo") = true := by
  decide

/-- C7: the empty query returns the empty result list for every candidate
list and either ordering mode (it does not match everything). -/
theorem c7_empty_query (cs : List Candidate) (keep_order : Bool) :
    rank_candidates cs (bytes "") keep_order = some [] := by
  cases keep_order <;> rfl

/-- C8: for candidates `"a_b.txt"` and `"xab.txt"` (plain mode off, so the
display names are the whole strings) and query `"ab"`, both candidates match
and `"a_b.txt"` receives the strictly lower (better) rank - the boundary-start
bonus beats the mid-word start. -/
theorem c8_boundary_bonus :
    ((rank_candidates
        [⟨bytes "a_b.txt", fileName (bytes "a_b.txt"), 0, []⟩,
         ⟨bytes "xab.txt", fileName (bytes "xab.txt"), 0, []⟩]
        (bytes "ab") false).getD []).map (fun c => (c.path, c.rank)) =
      [(bytes "a_b.txt", 15/14), (bytes "xab.txt", 10/7)] ∧
    (15/14 : Rat) < 10/7 := by
  decide

/-- C9: the claim states that a printable byte is inserted at the caret with
the caret advancing (which the code does), and that Backspace deletes the byte
immediately before the caret.  In the middle of the query the code instead
calls `String::remove(cursor)`, deleting the byte *at* the caret: on query
`"ab"` with the caret at 1, Backspace yields `"a"` (the byte before the caret,
`'a'`, survives; claimed behavior would yield `"b"`).  The end-of-query branch
(`pop`) and the caret-at-0 no-op behave as claimed. -/
theorem c9_backspace_deletes_at_caret :
    apply_backspace (bytes "ab") 1 = some (bytes "a", 0) ∧
    apply_byte (bytes "ab") 1 99 = some (bytes "acb", 2) ∧
    apply_backspace (bytes "ab") 0 = some (bytes "ab", 0) := by
  decide

/-- C5 counterexample: the claim states that with `plain` off a candidate's
display name is the substring after the last path separator (so for input
record `"x/"` it would be the empty string).  The code uses `Path::file_name`,
which for `"x/"` yields `"x"`. -/
theorem c5_counterexample :
    (Candidate.collect (bytes "x/") 10 false).map Candidate.name
        = [some (bytes "x")] ∧
      spec_display_name (bytes "x/") = [] ∧ some (bytes "x") ≠ some ([] : List Nat) := by
  decide

/-! ### Claim C4: ordering of the result list -/

theorem listLexLE_trans : ∀ {x y z : List Nat},
    listLexLE x y → listLexLE y z → listLexLE x z := by
  intro x
  induction x with
  | nil => intro y z _ _; exact trivial
  | cons a as_ ih =>
    intro y z hxy hyz
    cases y with
    | nil => exact absurd hxy not_false
    | cons b bs =>
      cases z with
      | nil => exact absurd hyz not_false
      | cons c cs =>
        simp only [listLexLE] at hxy hyz ⊢
        rcases hxy with h1 | ⟨rfl, h1⟩
        · rcases hyz with h2 | ⟨rfl, h2⟩
          · exact Or.inl (Nat.lt_trans h1 h2)
          · exact Or.inl h1
        · rcases hyz with h2 | ⟨rfl, h2⟩
          · exact Or.inl h2
          · exact Or.inr ⟨rfl, ih h1 h2⟩

theorem listLexLE_total : ∀ (x y : List Nat), listLexLE x y ∨ listLexLE y x := by
  intro x
  induction x with
  | nil => intro y; exact Or.inl trivial
  | cons a as_ ih =>
    intro y
    cases y with
    | nil => exact Or.inr trivial
    | cons b bs =>
      simp only [listLexLE]
      rcases Nat.lt_trichotomy a b with h | rfl | h
      · exact Or.inl (Or.inl h)
      · rcases ih bs with h | h
        · exact Or.inl (Or.inr ⟨rfl, h⟩)
        · exact Or.inr (Or.inr ⟨rfl, h⟩)
      · exact Or.inr (Or.inl h)

theorem cand_le_iff {a b : Candidate} : cand_le a b = true ↔ tripleLE a b := by
  unfold cand_le
  rw [decide_eq_true_iff]
  unfold cand_cmp tripleLE
  rcases hr : rank_cmp a.rank b.rank with _ | _ | _
  · have hlt := rank_cmp_lt_iff.mp hr
    simp only [hr]
    constructor
    · intro _; exact Or.inl hlt
    · intro _; simp
  · have heq := rank_cmp_eq_iff.mp hr
    simp only [hr]
    rcases hn : usize_cmp a.path.length b.path.length with _ | _ | _
    · have hnlt := usize_cmp_lt_iff.mp hn
      simp only [hn]
      constructor
      · intro _; exact Or.inr ⟨heq, Or.inl hnlt⟩
      · intro _; simp
    · have hneq := usize_cmp_eq_iff.mp hn
      simp only [hn]
      rw [byte_list_cmp_ne_gt_iff]
      constructor
      · intro hlex; exact Or.inr ⟨heq, Or.inr ⟨hneq, hlex⟩⟩
      · rintro (h | ⟨-, h | ⟨-, hlex⟩⟩)
        · exact absurd h (by rw [heq]; exact lt_irrefl _)
        · exact absurd h (by omega)
        · exact hlex
    · have hngt := usize_cmp_gt_iff.mp hn
      simp only [hn]
      constructor
      · intro h; exact absurd rfl h
      · rintro (h | ⟨-, h | ⟨h, -⟩⟩)
        · exact absurd h (by rw [heq]; exact lt_irrefl _)
        · exact absurd h (by omega)
        · exact absurd h (by omega)
  · have hrgt := rank_cmp_gt_iff.mp hr
    simp only [hr]
    constructor
    · intro h; exact absurd rfl h
    · rintro (h | ⟨h, -⟩)
      · exact absurd hrgt (lt_asymm h)
      · exact absurd hrgt (by rw [h]; exact lt_irrefl _)

theorem tripleLE_trans (a b c : Candidate) (hab : tripleLE a b)
    (hbc : tripleLE b c) : tripleLE a c := by
  unfold tripleLE at hab hbc ⊢
  rcases hab with h1 | ⟨e1, g1⟩
  · rcases hbc with h2 | ⟨e2, g2⟩
    · exact Or.inl (lt_trans h1 h2)
    · exact Or.inl (by rw [← e2]; exact h1)
  · rcases hbc with h2 | ⟨e2, g2⟩
    · exact Or.inl (by rw [e1]; exact h2)
    · refine Or.inr ⟨e1.trans e2, ?_⟩
      rcases g1 with g1 | ⟨f1, l1⟩
      · rcases g2 with g2 | ⟨f2, l2⟩
        · exact Or.inl (Nat.lt_trans g1 g2)
        · exact Or.inl (by omega)
      · rcases g2 with g2 | ⟨f2, l2⟩
        · exact Or.inl (by omega)
        · exact Or.inr ⟨f1.trans f2, listLexLE_trans l1 l2⟩

theorem tripleLE_total (a b : Candidate) : tripleLE a b ∨ tripleLE b a := by
  unfold tripleLE
  rcases lt_trichotomy a.rank b.rank with h | h | h
  · exact Or.inl (Or.inl h)
  · rcases Nat.lt_trichotomy a.path.length b.path.length with h2 | h2 | h2
    · exact Or.inl (Or.inr ⟨h, Or.inl h2⟩)
    · rcases listLexLE_total a.path b.path with h3 | h3
      · exact Or.inl (Or.inr ⟨h, Or.inr ⟨h2, h3⟩⟩)
      · exact Or.inr (Or.inr ⟨h.symm, Or.inr ⟨h2.symm, h3⟩⟩)
    · exact Or.inr (Or.inr ⟨h.symm, Or.inl h2⟩)
  · exact Or.inr (Or.inl h)

theorem cand_le_trans (a b c : Candidate) (h1 : cand_le a b = true)
    (h2 : cand_le b c = true) : cand_le a c = true :=
  cand_le_iff.mpr (tripleLE_trans a b c (cand_le_iff.mp h1) (cand_le_iff.mp h2))

theorem cand_le_total (a b : Candidate) :
    cand_le a b = true ∨ cand_le b a = true := by
  rcases tripleLE_total a b with h | h
  · exact Or.inl (cand_le_iff.mpr h)
  · exact Or.inr (cand_le_iff.mpr h)

theorem rank_candidate_path {c : Candidate} {toks : List (List Nat)} {sc : Bool}
    {c' : Candidate} (h : rank_candidate c toks sc = some (some c')) :
    c'.path = c.path := by
  unfold rank_candidate at h
  cases hrt : rank_tokens c.path c.name sc toks with
  | none => simp [hrt] at h
  | some oc =>
    cases oc with
    | none => simp [hrt] at h
    | some pr =>
      simp only [hrt] at h
      simp only [Option.some_inj] at h
      rw [← h]

theorem rank_all_paths_sublist {toks : List (List Nat)} {sc : Bool} :
    ∀ {cs out : List Candidate}, rank_all toks sc cs = some out →
      (out.map Candidate.path).Sublist (cs.map Candidate.path) := by
  intro cs
  induction cs with
  | nil =>
    intro out h
    simp only [rank_all, Option.some_inj] at h
    subst h
    simp
  | cons c cs ih =>
    intro out h
    simp only [rank_all] at h
    cases hrc : rank_candidate c toks sc with
    | none => simp [hrc] at h
    | some oc =>
      cases oc with
      | none =>
        simp only [hrc] at h
        exact List.Sublist.cons _ (ih h)
      | some c' =>
        simp only [hrc] at h
        cases hra : rank_all toks sc cs with
        | none => simp [hra] at h
        | some rest =>
          simp only [hra, Option.map_some', Option.some_inj] at h
          subst h
          simp only [List.map_cons, rank_candidate_path hrc]
          exact List.Sublist.cons₂ _ (ih hra)

/-- C4: with `keepOrder` false the returned list is sorted ascending by the
triple (rank, path byte-length, path lexicographic order); with `keepOrder`
true the matched candidates keep their relative input order regardless of
score (their paths form a sublist of the input paths). -/
theorem c4_ordering (cs : List Candidate) (q : List Nat) :
    (∀ out, rank_candidates cs q false = some out → out.Pairwise tripleLE) ∧
    (∀ out, rank_candidates cs q true = some out →
      (out.map Candidate.path).Sublist (cs.map Candidate.path)) := by
  constructor
  · intro out h
    simp only [rank_candidates] at h
    cases hr : (if q.length > 0 then rank_all (split_query q) (!has_upper q) cs
        else some []) with
    | none => simp [hr] at h
    | some ranked =>
      simp only [hr, Bool.not_false, if_true, Option.some_inj] at h
      subst h
      exact (sort_by_pairwise cand_le_trans cand_le_total ranked).imp
        fun hxy => cand_le_iff.mp hxy
  · intro out h
    simp only [rank_candidates] at h
    by_cases hq : q.length > 0
    · rw [if_pos hq] at h
      cases hr : rank_all (split_query q) (!has_upper q) cs with
      | none => simp [hr] at h
      | some ranked =>
        simp only [hr, Bool.not_true, Bool.false_eq_true, if_false,
          Option.some_inj] at h
        subst h
        exact rank_all_paths_sublist hr
    · rw [if_neg hq] at h
      simp only [Bool.not_true, Bool.false_eq_true, if_false, Option.some_inj] at h
      subst h
      simp

/-! ### Claim C6: the ranges invariant -/

theorem scan_go_le {name : List Nat} {sc : Bool} :
    ∀ {tok : List Nat} {last : Nat} {ls : Bool} {r res : Rat} {e : Nat},
      scan_go name sc tok last ls r = some (some (res, e)) → last ≤ e := by
  intro tok
  induction tok with
  | nil =>
    intro last ls r res e h
    simp only [scan_go, Option.some_inj, Prod.mk.injEq] at h
    omega
  | cons chr rest ih =>
    intro last ls r res e h
    simp only [scan_go] at h
    cases hidx : idx_of sc name (last + 1) chr with
    | none => simp [hidx] at h
    | some index =>
      have hb := idx_of_bounds hidx
      simp only [hidx] at h
      by_cases hseq : index = last + 1
      · rw [if_pos hseq] at h
        by_cases hls : (!ls) = true
        · rw [if_pos hls] at h
          have := ih h
          omega
        · rw [if_neg hls] at h
          have := ih h
          omega
      · rw [if_neg hseq] at h
        cases hget : name[index - 1]? with
        | none => simp [hget] at h
        | some b =>
          simp only [hget] at h
          have := ih h
          omega

theorem scan_to_end_le {name tok : List Nat} {s : Nat} {sc : Bool} {m : Match}
    (h : scan_to_end name tok s sc = some (some m)) :
    m.start = s ∧ s ≤ m.stop := by
  unfold scan_to_end at h
  cases h0 : boundary_rank name s with
  | none => simp [h0] at h
  | some r0 =>
    simp only [h0] at h
    cases hsg : scan_go name sc tok s false r0 with
    | none => simp [hsg] at h
    | some og =>
      cases og with
      | none => simp [hsg] at h
      | some pr =>
        obtain ⟨r, last⟩ := pr
        simp only [hsg, Option.some_inj] at h
        have hle := scan_go_le hsg
        rw [← h]
        exact ⟨rfl, hle⟩

theorem phase_loop_le {scan_str tr : List Nat} {sc : Bool} :
    ∀ {idxs : List Nat} {best : Option (Rat × Nat × Nat)} {res : Rat × Nat × Nat},
      (∀ x, best = some x → x.2.1 ≤ x.2.2) →
      phase_loop scan_str tr sc idxs best = some (some res) →
      res.2.1 ≤ res.2.2 := by
  intro idxs
  induction idxs with
  | nil =>
    intro best res hbest h
    simp only [phase_loop, Option.some_inj] at h
    exact hbest res h
  | cons i more ih =>
    intro best res hbest h
    simp only [phase_loop] at h
    cases hst : scan_to_end scan_str tr i sc with
    | none => simp [hst] at h
    | some om =>
      cases om with
      | none =>
        simp only [hst, Option.some_inj] at h
        exact hbest res h
      | some m =>
        simp only [hst] at h
        refine ih ?_ h
        intro x hx
        obtain ⟨hms, hme⟩ := scan_to_end_le hst
        cases best with
        | none =>
          simp only [Option.some_inj] at hx
          rw [← hx]
          simpa [hms] using hme
        | some old =>
          obtain ⟨b, s, e⟩ := old
          by_cases hlt : m.rank < b
          · simp only [if_pos hlt, Option.some_inj] at hx
            rw [← hx]
            simpa [hms] using hme
          · simp only [if_neg hlt, Option.some_inj] at hx
            rw [← hx]
            exact hbest (b, s, e) rfl

theorem rank_token_retry_range {path : List Nat} {chr0 : Nat} {rest : List Nat}
    {sc : Bool} {r : Rat} {rg : Range}
    (h : rank_token_retry path chr0 rest sc = some (some (r, rg))) :
    rg.start ≤ rg.stop := by
  unfold rank_token_retry at h
  cases hpl : phase_loop path rest sc (index_iterator path chr0 sc 0) none with
  | none => simp [hpl] at h
  | some ob =>
    cases ob with
    | none => simp [hpl] at h
    | some pr =>
      obtain ⟨rr, s, e⟩ := pr
      have hse : s ≤ e := phase_loop_le (fun x hx => by simp at hx) hpl
      simp only [hpl, Option.some_inj, Prod.mk.injEq] at h
      obtain ⟨-, hrg⟩ := h
      rw [← hrg]
      exact hse

theorem rank_token_range {path : List Nat} {name : Option (List Nat)}
    {tok : List Nat} {sc : Bool} {r : Rat} {rg : Range}
    (h : rank_token path name tok sc = some (some (r, rg))) :
    rg.start ≤ rg.stop := by
  unfold rank_token at h
  cases tok with
  | nil => simp at h
  | cons chr0 rest =>
    cases name with
    | none => exact rank_token_retry_range h
    | some n =>
      cases hpl : phase_loop n rest sc (index_iterator path chr0 sc 0) none with
      | none => simp [hpl] at h
      | some ob =>
        cases ob with
        | none =>
          simp only [hpl] at h
          exact rank_token_retry_range h
        | some pr =>
          obtain ⟨rr, s, e⟩ := pr
          have hse : s ≤ e := phase_loop_le (fun x hx => by simp at hx) hpl
          simp only [hpl, Option.some_inj, Prod.mk.injEq] at h
          obtain ⟨-, hrg⟩ := h
          rw [← hrg]
          simp only []
          omega

theorem rank_tokens_spec {path : List Nat} {name : Option (List Nat)} {sc : Bool} :
    ∀ {ts : List (List Nat)} {r : Rat} {rgs : List Range},
      rank_tokens path name sc ts = some (some (r, rgs)) →
      rgs.length = ts.length ∧ ∀ rg ∈ rgs, rg.start ≤ rg.stop := by
  intro ts
  induction ts with
  | nil =>
    intro r rgs h
    simp only [rank_tokens, Option.some_inj, Prod.mk.injEq] at h
    obtain ⟨-, hrgs⟩ := h
    rw [← hrgs]
    simp
  | cons t ts ih =>
    intro r rgs h
    simp only [rank_tokens] at h
    cases hrt : rank_token path name t sc with
    | none => simp [hrt] at h
    | some ot =>
      cases ot with
      | none => simp [hrt] at h
      | some pr1 =>
        obtain ⟨r1, rg1⟩ := pr1
        simp only [hrt] at h
        cases hrec : rank_tokens path name sc ts with
        | none => simp [hrec] at h
        | some orec =>
          cases orec with
          | none => simp [hrec] at h
          | some pr2 =>
            obtain ⟨racc, rgs'⟩ := pr2
            simp only [hrec, Option.some_inj, Prod.mk.injEq] at h
            obtain ⟨-, hrgs⟩ := h
            obtain ⟨hlen, hall⟩ := ih hrec
            rw [← hrgs]
            refine ⟨by simp [hlen], ?_⟩
            intro rg hrg
            rcases List.mem_cons.mp hrg with rfl | hrg
            · exact rank_token_range hrt
            · exact hall rg hrg

theorem rank_candidate_ranges {c : Candidate} {toks : List (List Nat)} {sc : Bool}
    {c' : Candidate} (h : rank_candidate c toks sc = some (some c')) :
    c'.ranges.length = toks.length ∧ ∀ rg ∈ c'.ranges, rg.start ≤ rg.stop := by
  unfold rank_candidate at h
  cases hrt : rank_tokens c.path c.name sc toks with
  | none => simp [hrt] at h
  | some oc =>
    cases oc with
    | none => simp [hrt] at h
    | some pr =>
      obtain ⟨r, rgs⟩ := pr
      simp only [hrt, Option.some_inj] at h
      rw [← h]
      exact rank_tokens_spec hrt

theorem rank_all_mem {toks : List (List Nat)} {sc : Bool} :
    ∀ {cs out : List Candidate} {c' : Candidate},
      rank_all toks sc cs = some out → c' ∈ out →
      ∃ c, rank_candidate c toks sc = some (some c') := by
  intro cs
  induction cs with
  | nil =>
    intro out c' h hmem
    simp only [rank_all, Option.some_inj] at h
    subst h
    simp at hmem
  | cons c cs ih =>
    intro out c' h hmem
    simp only [rank_all] at h
    cases hrc : rank_candidate c toks sc with
    | none => simp [hrc] at h
    | some oc =>
      cases oc with
      | none =>
        simp only [hrc] at h
        exact ih h hmem
      | some c0 =>
        simp only [hrc] at h
        cases hra : rank_all toks sc cs with
        | none => simp [hra] at h
        | some rest =>
          simp only [hra, Option.map_some', Option.some_inj] at h
          subst h
          rcases List.mem_cons.mp hmem with rfl | hmem
          · exact ⟨c, hrc⟩
          · exact ih hra hmem

/-- C6: for every candidate returned by `rank_candidates` on a non-empty
query, `ranges` has exactly one entry per query token and every entry
satisfies `start ≤ end`. -/
theorem c6_ranges_invariant (cs : List Candidate) (q : List Nat) (ko : Bool)
    (out : List Candidate) (h : rank_candidates cs q ko = some out)
    (hq : q ≠ []) :
    ∀ c ∈ out, c.ranges.length = (split_query q).length ∧
      ∀ rg ∈ c.ranges, rg.start ≤ rg.stop := by
  intro c hc
  simp only [rank_candidates] at h
  have hql : q.length > 0 := by
    cases q with
    | nil => exact absurd rfl hq
    | cons a as_ => simp
  rw [if_pos hql] at h
  cases hr : rank_all (split_query q) (!has_upper q) cs with
  | none => simp [hr] at h
  | some ranked =>
    simp only [hr, Option.some_inj] at h
    subst h
    have hcr : c ∈ ranked := by
      cases ko with
      | false =>
        simp only [Bool.not_false, if_true] at hc
        exact mem_sort_by.mp hc
      | true =>
        simpa using hc
    obtain ⟨c0, hrc⟩ := rank_all_mem hr hcr
    exact rank_candidate_ranges hrc

/-! ### Claim C10: the render-range iterator partitions the display interval -/

theorem iter_ranges_go_spec (stop : Nat) :
    ∀ (rs : List Range) (a : Nat), wfRanges a rs stop →
      segsPartition a (iter_ranges_go stop rs a) stop ∧
      ((iter_ranges_go stop rs a).filter (·.1)).map (·.2) =
        rs.map (fun r => Range.mk r.start (min (r.stop + 1) stop)) := by
  intro rs
  induction rs with
  | nil =>
    intro a hwf
    unfold wfRanges at hwf
    simp only [iter_ranges_go]
    by_cases h : a < stop
    · rw [if_pos h]
      exact ⟨⟨rfl, h, rfl⟩, by simp⟩
    · rw [if_neg h]
      exact ⟨by unfold segsPartition; omega, by simp⟩
  | cons r rest ih =>
    intro a hwf
    unfold wfRanges at hwf
    obtain ⟨har, hrse, hrb, hwf'⟩ := hwf
    have hmin : min (r.stop + 1) stop = r.stop + 1 := by omega
    obtain ⟨hp, hf⟩ := ih (r.stop + 1) hwf'
    simp only [iter_ranges_go]
    rw [if_neg (by omega : ¬ stop ≤ a)]
    by_cases heq : a = r.start
    · rw [if_pos heq]
      constructor
      · refine ⟨heq.symm, ?_, ?_⟩
        · dsimp only
          omega
        · dsimp only
          rw [hmin]
          exact hp
      · simp [hmin, hf]
    · rw [if_neg heq]
      rw [if_neg (by omega : ¬ stop ≤ r.start)]
      constructor
      · refine ⟨rfl, ?_, rfl, ?_, ?_⟩
        · dsimp only
          omega
        · dsimp only
          omega
        · dsimp only
          rw [hmin]
          exact hp
      · simp [hmin, hf]

/-- C10: for every range sequence that is sorted by start, pairwise
non-overlapping after normalizing each `end` to `end + 1`, and contained in
`[0, stop)`, `IterRanges` yields contiguous segments exactly partitioning
`[0, stop)` in order, whose `true`-flagged segments are precisely the
normalized (clipped) input ranges; the `false`-flagged segments are therefore
the gaps between them. -/
theorem c10_iter_ranges_partition (rs : List Range) (stop : Nat)
    (h : wfRanges 0 rs stop) :
    segsPartition 0 (IterRanges rs stop) stop ∧
    ((IterRanges rs stop).filter (·.1)).map (·.2) =
      rs.map (fun r => Range.mk r.start (min (r.stop + 1) stop)) :=
  iter_ranges_go_spec stop rs 0 h

/-- Witness for C10 at a concrete input: two ranges inside `[0, 7)`. -/
theorem c10_witness :
    segsPartition 0 (IterRanges [⟨1, 2⟩, ⟨4, 4⟩] 7) 7 ∧
    ((IterRanges [⟨1, 2⟩, ⟨4, 4⟩] 7).filter (·.1)).map (·.2) =
      ([⟨1, 2⟩, ⟨4, 4⟩] : List Range).map
        (fun r => Range.mk r.start (min (r.stop + 1) 7)) :=
  c10_iter_ranges_partition [⟨1, 2⟩, ⟨4, 4⟩] 7 (by decide)

/-! ### Claim C5 (amended): collect -/

theorem collect_map_path (l : List (List Nat)) (plain : Bool) :
    ((l.filterMap fun item => if item.length = 0 then none
        else some (⟨item, if !plain then fileName item else none, 0, []⟩ :
          Candidate)).map Candidate.path)
      = l.filter (fun s => s.length != 0) := by
  induction l with
  | nil => rfl
  | cons x xs ih =>
    simp only [List.filterMap_cons, List.filter_cons]
    by_cases hx : x.length = 0
    · rw [if_pos hx]
      simp only [hx, bne_self_eq_false, if_false]
      exact ih
    · rw [if_neg hx]
      have hbne : (x.length != 0) = true := by simpa using hx
      simp only [hbne, if_true, List.map_cons]
      rw [ih]

/-- C5 (amended): `collect` splits the raw input on the single delimiter
byte, drops zero-length segments, and returns candidates in input order (the
output paths are exactly the non-empty segments, in order); when `plain` is
false each candidate's display name is Rust `Path::file_name` of its path (the
last component, skipping empty and `"."` segments, absent when that component
is `".."` or nothing remains) - for paths with a trailing separator this is
not the substring after the last separator, see the counterexample; when
`plain` is true the display name is always absent. -/
theorem c5_collect (content : List Nat) (d : Nat) (plain : Bool) :
    (Candidate.collect content d plain).map Candidate.path =
      (bufSplit content d).filter (fun s => s.length != 0) ∧
    (∀ c ∈ Candidate.collect content d false, c.name = fileName c.path) ∧
    (∀ c ∈ Candidate.collect content d true, c.name = none) := by
  refine ⟨collect_map_path (bufSplit content d) plain, ?_, ?_⟩
  · intro c hc
    unfold Candidate.collect at hc
    rw [List.mem_filterMap] at hc
    obtain ⟨item, -, hf⟩ := hc
    by_cases hi : item.length = 0
    · rw [if_pos hi] at hf
      cases hf
    · rw [if_neg hi] at hf
      simp only [Option.some_inj] at hf
      rw [← hf]
      rfl
  · intro c hc
    unfold Candidate.collect at hc
    rw [List.mem_filterMap] at hc
    obtain ⟨item, -, hf⟩ := hc
    by_cases hi : item.length = 0
    · rw [if_pos hi] at hf
      cases hf
    · rw [if_neg hi] at hf
      simp only [Option.some_inj] at hf
      rw [← hf]
      rfl

/-! ### Witnesses discharging the hypotheses of the universal claim theorems -/

/-- Witness for C4 at a concrete input: candidates `"b"` and `"ab"` with query
`"b"` are returned sorted by the triple with `keepOrder` false, and keep their
input order (as a path sublist) with `keepOrder` true. -/
theorem c4_witness :
    ([⟨bytes "b", some (bytes "b"), 1/4, [⟨0, 0⟩]⟩,
      ⟨bytes "ab", some (bytes "ab"), 3/4, [⟨1, 1⟩]⟩] : List Candidate).Pairwise
        tripleLE ∧
    (([⟨bytes "b", some (bytes "b"), 1/4, [⟨0, 0⟩]⟩,
       ⟨bytes "ab", some (bytes "ab"), 3/4, [⟨1, 1⟩]⟩] : List Candidate).map
        Candidate.path).Sublist
      (([⟨bytes "b", some (bytes "b"), 0, []⟩,
         ⟨bytes "ab", some (bytes "ab"), 0, []⟩] : List Candidate).map
        Candidate.path) :=
  ⟨(c4_ordering [⟨bytes "b", some (bytes "b"), 0, []⟩,
      ⟨bytes "ab", some (bytes "ab"), 0, []⟩] (bytes "b")).1 _ (by decide),
   (c4_ordering [⟨bytes "b", some (bytes "b"), 0, []⟩,
      ⟨bytes "ab", some (bytes "ab"), 0, []⟩] (bytes "b")).2 _ (by decide)⟩

/-- Witness for the amended C5 at a concrete input: one record `"a/b"`. -/
theorem c5_collect_witness :
    (Candidate.collect (bytes "a/b") 10 false).map Candidate.path =
      (bufSplit (bytes "a/b") 10).filter (fun s => s.length != 0) ∧
    (⟨bytes "a/b", some (bytes "b"), 0, []⟩ : Candidate).name =
      fileName (⟨bytes "a/b", some (bytes "b"), 0, []⟩ : Candidate).path ∧
    (⟨bytes "a/b", none, 0, []⟩ : Candidate).name = none :=
  ⟨(c5_collect (bytes "a/b") 10 false).1,
   (c5_collect (bytes "a/b") 10 false).2.1 _ (by decide),
   (c5_collect (bytes "a/b") 10 true).2.2 _ (by decide)⟩

/-- Witness for C6 at a concrete input: candidate `"ab"`, query `"b"`. -/
theorem c6_witness :
    (⟨bytes "ab", some (bytes "ab"), 3/4, [⟨1, 1⟩]⟩ : Candidate).ranges.length
        = (split_query (bytes "b")).length ∧
    (⟨1, 1⟩ : Range).start ≤ (⟨1, 1⟩ : Range).stop :=
  have app := c6_ranges_invariant [⟨bytes "ab", some (bytes "ab"), 0, []⟩]
    (bytes "b") false [⟨bytes "ab", some (bytes "ab"), 3/4, [⟨1, 1⟩]⟩]
    (by decide) (by decide) ⟨bytes "ab", some (bytes "ab"), 3/4, [⟨1, 1⟩]⟩
    (by decide)
  ⟨app.1, app.2 ⟨1, 1⟩ (by decide)⟩

end ZF
